import Mathlib

/-!
Verification of the key-granularity reader/writer lock table
(`SimpleLockTable` in `src/locktable.rs`).

The table maps byte-string keys to per-key latches.  The latch type
`RwLatch` lives in `crate::rwlatch`, which is not part of the given
sources, so it is modelled from the specification (section 4.1 state
machine).  The table operations are translated directly from
`src/locktable.rs`.  A Rust `panic!` / `unwrap()` failure is modelled by
`Option.none`; operations that cannot fault return plain values.
-/

namespace LockTab

/-- Keys are arbitrary byte sequences; a byte is modelled as a natural. -/
abbrev Key := List Nat

/-- Modelled from the spec: the per-key latch `RwLatch` from
`crate::rwlatch` is not among the given sources.  Its state, per spec
section 3, is a non-negative `shared_count` and a boolean
`exclusive_held`. -/
structure RwLatch where
  shared_count : Nat
  exclusive_held : Bool
  deriving DecidableEq

/-- Modelled from the spec: a freshly constructed latch is unlocked
(spec section 3 lifecycle; `RwLatch::default()` in the source). -/
def RwLatch.default : RwLatch := ⟨0, false⟩

/-- Modelled from the spec: `is_locked` is true iff the state is not
`Unlocked` (spec section 4.1 table). -/
def RwLatch.is_locked (l : RwLatch) : Bool :=
  l.exclusive_held || l.shared_count != 0

/-- Modelled from the spec: `try_shared` succeeds from `Unlocked` or
`Shared(n)`, incrementing the count; it fails from `Exclusive` with no
change (spec section 4.1 table). -/
def RwLatch.try_shared (l : RwLatch) : Bool × RwLatch :=
  if l.exclusive_held then (false, l)
  else (true, { l with shared_count := l.shared_count + 1 })

/-- Modelled from the spec: `try_exclusive` succeeds only from
`Unlocked`; it fails from `Shared` or `Exclusive` with no change (spec
section 4.1 table). -/
def RwLatch.try_exclusive (l : RwLatch) : Bool × RwLatch :=
  if l.exclusive_held || l.shared_count != 0 then (false, l)
  else (true, { l with exclusive_held := true })

/-- Modelled from the spec: `try_upgrade` succeeds only from
`Shared(1)`, going to `Exclusive`; it fails from `Shared(n>1)` or
`Exclusive` with no change (spec section 4.1 table). -/
def RwLatch.try_upgrade (l : RwLatch) : Bool × RwLatch :=
  if !l.exclusive_held && l.shared_count == 1 then (true, ⟨0, true⟩)
  else (false, l)

/-- Modelled from the spec: `downgrade` requires `Exclusive` and goes to
`Shared(1)`; a precondition violation is fatal (spec section 4.1). -/
def RwLatch.downgrade (l : RwLatch) : Option RwLatch :=
  if l.exclusive_held then some ⟨1, false⟩ else none

/-- Modelled from the spec: `release_shared` requires `Shared(n)` with
n ≥ 1 and decrements the count; a precondition violation is fatal (spec
section 4.1). -/
def RwLatch.release_shared (l : RwLatch) : Option RwLatch :=
  if !l.exclusive_held && l.shared_count != 0 then
    some { l with shared_count := l.shared_count - 1 }
  else none

/-- Modelled from the spec: `release_exclusive` requires `Exclusive` and
goes to `Unlocked`; a precondition violation is fatal (spec section
4.1). -/
def RwLatch.release_exclusive (l : RwLatch) : Option RwLatch :=
  if l.exclusive_held then some { l with exclusive_held := false }
  else none

/-- The table's map is embedded as an association list from keys to
latches; reachable tables never hold two entries with the same key. -/
abbrev Table := List (Key × RwLatch)

/-- Lookup of the entry for a key (first occurrence). -/
def lookupEntry (t : Table) (k : Key) : Option RwLatch :=
  match t with
  | [] => none
  | e :: rest => if e.fst = k then some e.snd else lookupEntry rest k

/-- Replace the latch stored at a key (first occurrence), modelling the
in-place mutation of the latch held in an occupied `dashmap` entry. -/
def updateEntry (t : Table) (k : Key) (l : RwLatch) : Table :=
  match t with
  | [] => []
  | e :: rest =>
      if e.fst = k then (k, l) :: rest else e :: updateEntry rest k l

/-- Remove the entry for a key, modelling `entry.remove()`. -/
def removeEntry (t : Table) (k : Key) : Table :=
  match t with
  | [] => []
  | e :: rest =>
      if e.fst = k then removeEntry rest k else e :: removeEntry rest k

/-- The lock table from `src/locktable.rs`: a map from key to latch. -/
structure SimpleLockTable where
  hashmap : Table
  deriving DecidableEq

/-- `SimpleLockTable::new`: an empty map. -/
def SimpleLockTable.new : SimpleLockTable := ⟨[]⟩

/-- `SimpleLockTable::try_shared`: occupied entries delegate to the
latch; a vacant entry gets a default latch on which `try_shared` is
asserted to succeed, then the latch is inserted. -/
def SimpleLockTable.try_shared (t : SimpleLockTable) (key : Key) :
    Bool × SimpleLockTable :=
  match lookupEntry t.hashmap key with
  | some lock =>
      let r := lock.try_shared
      (r.fst, ⟨updateEntry t.hashmap key r.snd⟩)
  | none =>
      let r := RwLatch.default.try_shared
      (r.fst, ⟨(key, r.snd) :: t.hashmap⟩)

/-- `SimpleLockTable::try_exclusive`: symmetric to `try_shared`. -/
def SimpleLockTable.try_exclusive (t : SimpleLockTable) (key : Key) :
    Bool × SimpleLockTable :=
  match lookupEntry t.hashmap key with
  | some lock =>
      let r := lock.try_exclusive
      (r.fst, ⟨updateEntry t.hashmap key r.snd⟩)
  | none =>
      let r := RwLatch.default.try_exclusive
      (r.fst, ⟨(key, r.snd) :: t.hashmap⟩)

/-- `SimpleLockTable::try_upgrade`: occupied entries delegate to the
latch; a vacant entry returns `false` with the map untouched. -/
def SimpleLockTable.try_upgrade (t : SimpleLockTable) (key : Key) :
    Bool × SimpleLockTable :=
  match lookupEntry t.hashmap key with
  | some lock =>
      let r := lock.try_upgrade
      (r.fst, ⟨updateEntry t.hashmap key r.snd⟩)
  | none => (false, t)

/-- `SimpleLockTable::downgrade`: `get(key).unwrap()` is fatal on an
absent key (`none`); otherwise delegate to the latch. -/
def SimpleLockTable.downgrade (t : SimpleLockTable) (key : Key) :
    Option SimpleLockTable :=
  match lookupEntry t.hashmap key with
  | some lock => lock.downgrade.map fun l => ⟨updateEntry t.hashmap key l⟩
  | none => none

/-- `SimpleLockTable::release_shared`: fatal (`panic!`) on an absent
key; otherwise release on the latch and remove the entry if the latch
reports unlocked afterwards. -/
def SimpleLockTable.release_shared (t : SimpleLockTable) (key : Key) :
    Option SimpleLockTable :=
  match lookupEntry t.hashmap key with
  | some lock =>
      match lock.release_shared with
      | some l =>
          if l.is_locked then some ⟨updateEntry t.hashmap key l⟩
          else some ⟨removeEntry t.hashmap key⟩
      | none => none
  | none => none

/-- `SimpleLockTable::release_exclusive`: fatal (`panic!`) on an absent
key; otherwise release on the latch and remove the entry if the latch
reports unlocked afterwards. -/
def SimpleLockTable.release_exclusive (t : SimpleLockTable) (key : Key) :
    Option SimpleLockTable :=
  match lookupEntry t.hashmap key with
  | some lock =>
      match lock.release_exclusive with
      | some l =>
          if l.is_locked then some ⟨updateEntry t.hashmap key l⟩
          else some ⟨removeEntry t.hashmap key⟩
      | none => none
  | none => none

/-- `SimpleLockTable::check_all_released`: the map is empty. -/
def SimpleLockTable.check_all_released (t : SimpleLockTable) : Bool :=
  t.hashmap.isEmpty

/-- One public lock-table operation together with its key argument. -/
inductive Op where
  | tryShared (k : Key)
  | tryExclusive (k : Key)
  | tryUpgrade (k : Key)
  | doDowngrade (k : Key)
  | relShared (k : Key)
  | relExclusive (k : Key)
  deriving DecidableEq

/-- The key an operation acts on. -/
def Op.key : Op → Key
  | .tryShared k => k
  | .tryExclusive k => k
  | .tryUpgrade k => k
  | .doDowngrade k => k
  | .relShared k => k
  | .relExclusive k => k

/-- Execute one operation; `none` models a fatal panic. -/
def step (t : SimpleLockTable) : Op → Option SimpleLockTable
  | .tryShared k => some (t.try_shared k).snd
  | .tryExclusive k => some (t.try_exclusive k).snd
  | .tryUpgrade k => some (t.try_upgrade k).snd
  | .doDowngrade k => t.downgrade k
  | .relShared k => t.release_shared k
  | .relExclusive k => t.release_exclusive k

/-- Execute a sequence of operations, propagating fatality. -/
def runOps (t : SimpleLockTable) : List Op → Option SimpleLockTable
  | [] => some t
  | op :: ops => (step t op).bind fun t2 => runOps t2 ops

/-- A table state is reachable when some operation sequence produces it
from the freshly constructed empty table. -/
def Reachable (t : SimpleLockTable) : Prop :=
  ∃ ops, runOps SimpleLockTable.new ops = some t

/-- A well-formed latch never mixes exclusive and shared holders. -/
def WFLatch (l : RwLatch) : Prop :=
  l.exclusive_held = true → l.shared_count = 0

/-- The table invariant: every entry in the map holds a latch that is
locked and well formed. -/
def TableInv (t : SimpleLockTable) : Prop :=
  ∀ e ∈ t.hashmap, e.snd.is_locked = true ∧ WFLatch e.snd

/-- n consecutive `try_shared` calls on one key; the boolean is the
conjunction of all returned flags. -/
def trySharedN (t : SimpleLockTable) (k : Key) : Nat → Bool × SimpleLockTable
  | 0 => (true, t)
  | n + 1 =>
      let r := trySharedN t k n
      let r2 := r.snd.try_shared k
      (r.fst && r2.fst, r2.snd)

/-- `try_shared` immediately followed by `release_shared` on one key,
iterated n times. -/
def sharedRoundTrips (t : SimpleLockTable) (k : Key) :
    Nat → Option SimpleLockTable
  | 0 => some t
  | n + 1 =>
      (sharedRoundTrips t k n).bind fun t2 =>
        (t2.try_shared k).snd.release_shared k

theorem lookupEntry_mem {t : Table} {k : Key} {l : RwLatch}
    (h : lookupEntry t k = some l) : (k, l) ∈ t := by
  induction t with
  | nil => simp [lookupEntry] at h
  | cons e rest ih =>
      by_cases hk : e.fst = k
      · simp [lookupEntry, hk] at h
        subst hk
        simp [← h]
      · simp [lookupEntry, hk] at h
        exact List.mem_cons_of_mem _ (ih h)

theorem lookupEntry_update_self {t : Table} {k : Key} {l0 : RwLatch}
    (h : lookupEntry t k = some l0) (l : RwLatch) :
    lookupEntry (updateEntry t k l) k = some l := by
  induction t with
  | nil => simp [lookupEntry] at h
  | cons e rest ih =>
      by_cases hk : e.fst = k
      · simp [updateEntry, hk, lookupEntry]
      · simp [lookupEntry, hk] at h
        simp [updateEntry, hk, lookupEntry, ih h]

theorem lookupEntry_update_ne {t : Table} {k k2 : Key} (l : RwLatch)
    (h : k2 ≠ k) :
    lookupEntry (updateEntry t k l) k2 = lookupEntry t k2 := by
  induction t with
  | nil => simp [updateEntry]
  | cons e rest ih =>
      by_cases hk : e.fst = k
      · have h2 : ¬ k = k2 := fun hh => h hh.symm
        have h3 : ¬ e.fst = k2 := fun hh => h2 (hk ▸ hh)
        rw [show updateEntry (e :: rest) k l = (k, l) :: rest from by
          simp [updateEntry, hk]]
        simp [lookupEntry, h2, h3]
      · simp [updateEntry, hk, lookupEntry, ih]

theorem updateEntry_self_id {t : Table} {k : Key} {l : RwLatch}
    (h : lookupEntry t k = some l) : updateEntry t k l = t := by
  induction t with
  | nil => simp [lookupEntry] at h
  | cons e rest ih =>
      by_cases hk : e.fst = k
      · simp [lookupEntry, hk] at h
        subst hk
        simp [updateEntry, ← h]
      · simp [lookupEntry, hk] at h
        simp [updateEntry, hk, ih h]

theorem lookupEntry_remove_self (t : Table) (k : Key) :
    lookupEntry (removeEntry t k) k = none := by
  induction t with
  | nil => simp [removeEntry, lookupEntry]
  | cons e rest ih =>
      by_cases hk : e.fst = k
      · simp [removeEntry, hk, ih]
      · simp [removeEntry, hk, lookupEntry, ih]

theorem lookupEntry_remove_ne {t : Table} {k k2 : Key} (h : k2 ≠ k) :
    lookupEntry (removeEntry t k) k2 = lookupEntry t k2 := by
  induction t with
  | nil => simp [removeEntry]
  | cons e rest ih =>
      by_cases hk : e.fst = k
      · have h2 : ¬ k = k2 := fun hh => h hh.symm
        have h3 : ¬ e.fst = k2 := fun hh => h2 (hk ▸ hh)
        simp [removeEntry, hk, lookupEntry, h2, h3, ih]
      · simp [removeEntry, hk, lookupEntry, ih]

theorem mem_updateEntry {t : Table} {k : Key} {l : RwLatch} {e}
    (h : e ∈ updateEntry t k l) : e = (k, l) ∨ e ∈ t := by
  induction t with
  | nil => simp [updateEntry] at h
  | cons e2 rest ih =>
      by_cases hk : e2.fst = k
      · simp [updateEntry, hk] at h
        rcases h with h | h
        · exact Or.inl h
        · exact Or.inr (List.mem_cons_of_mem _ h)
      · simp [updateEntry, hk] at h
        rcases h with h | h
        · exact Or.inr (by simp [h])
        · rcases ih h with h2 | h2
          · exact Or.inl h2
          · exact Or.inr (List.mem_cons_of_mem _ h2)

theorem mem_removeEntry {t : Table} {k : Key} {e}
    (h : e ∈ removeEntry t k) : e ∈ t := by
  induction t with
  | nil => simp [removeEntry] at h
  | cons e2 rest ih =>
      by_cases hk : e2.fst = k
      · simp [removeEntry, hk] at h
        exact List.mem_cons_of_mem _ (ih h)
      · simp [removeEntry, hk] at h
        rcases h with h | h
        · simp [h]
        · exact List.mem_cons_of_mem _ (ih h)

theorem try_shared_absent {t : SimpleLockTable} {k : Key}
    (h : lookupEntry t.hashmap k = none) :
    t.try_shared k = (true, ⟨(k, ⟨1, false⟩) :: t.hashmap⟩) := by
  simp [SimpleLockTable.try_shared, h, RwLatch.default, RwLatch.try_shared]

theorem try_shared_present {t : SimpleLockTable} {k : Key} {lock : RwLatch}
    (h : lookupEntry t.hashmap k = some lock) :
    t.try_shared k =
      (lock.try_shared.fst, ⟨updateEntry t.hashmap k lock.try_shared.snd⟩) := by
  simp [SimpleLockTable.try_shared, h]

theorem try_shared_of_exclusive {t : SimpleLockTable} {k : Key} {lock : RwLatch}
    (h : lookupEntry t.hashmap k = some lock)
    (hex : lock.exclusive_held = true) :
    t.try_shared k = (false, t) := by
  rw [try_shared_present h]
  simp [RwLatch.try_shared, hex, updateEntry_self_id h]

theorem try_shared_of_shared {t : SimpleLockTable} {k : Key} {lock : RwLatch}
    (h : lookupEntry t.hashmap k = some lock)
    (hex : lock.exclusive_held = false) :
    t.try_shared k =
      (true, ⟨updateEntry t.hashmap k ⟨lock.shared_count + 1, false⟩⟩) := by
  rw [try_shared_present h]
  simp [RwLatch.try_shared, hex]

theorem try_exclusive_absent {t : SimpleLockTable} {k : Key}
    (h : lookupEntry t.hashmap k = none) :
    t.try_exclusive k = (true, ⟨(k, ⟨0, true⟩) :: t.hashmap⟩) := by
  simp [SimpleLockTable.try_exclusive, h, RwLatch.default, RwLatch.try_exclusive]

theorem try_exclusive_present {t : SimpleLockTable} {k : Key} {lock : RwLatch}
    (h : lookupEntry t.hashmap k = some lock) :
    t.try_exclusive k =
      (lock.try_exclusive.fst,
        ⟨updateEntry t.hashmap k lock.try_exclusive.snd⟩) := by
  simp [SimpleLockTable.try_exclusive, h]

theorem try_exclusive_of_locked {t : SimpleLockTable} {k : Key} {lock : RwLatch}
    (h : lookupEntry t.hashmap k = some lock)
    (hl : lock.is_locked = true) :
    t.try_exclusive k = (false, t) := by
  rw [try_exclusive_present h]
  have hc : (lock.exclusive_held || lock.shared_count != 0) = true := hl
  simp [RwLatch.try_exclusive, hc, updateEntry_self_id h]

theorem try_upgrade_absent {t : SimpleLockTable} {k : Key}
    (h : lookupEntry t.hashmap k = none) :
    t.try_upgrade k = (false, t) := by
  simp [SimpleLockTable.try_upgrade, h]

theorem try_upgrade_present {t : SimpleLockTable} {k : Key} {lock : RwLatch}
    (h : lookupEntry t.hashmap k = some lock) :
    t.try_upgrade k =
      (lock.try_upgrade.fst, ⟨updateEntry t.hashmap k lock.try_upgrade.snd⟩) := by
  simp [SimpleLockTable.try_upgrade, h]

theorem try_upgrade_of_sole {t : SimpleLockTable} {k : Key} {lock : RwLatch}
    (h : lookupEntry t.hashmap k = some lock)
    (hex : lock.exclusive_held = false) (hc : lock.shared_count = 1) :
    t.try_upgrade k = (true, ⟨updateEntry t.hashmap k ⟨0, true⟩⟩) := by
  rw [try_upgrade_present h]
  simp [RwLatch.try_upgrade, hex, hc]

theorem try_upgrade_of_other {t : SimpleLockTable} {k : Key} {lock : RwLatch}
    (h : lookupEntry t.hashmap k = some lock)
    (hno : ¬ (lock.exclusive_held = false ∧ lock.shared_count = 1)) :
    t.try_upgrade k = (false, t) := by
  rw [try_upgrade_present h]
  have hc : (!lock.exclusive_held && lock.shared_count == 1) = false := by
    cases hx : lock.exclusive_held
    · simp
      intro hc1
      exact absurd ⟨rfl, by simpa using hc1⟩ (hx ▸ hno)
    · simp
  simp [RwLatch.try_upgrade, hc, updateEntry_self_id h]

theorem downgrade_absent {t : SimpleLockTable} {k : Key}
    (h : lookupEntry t.hashmap k = none) :
    t.downgrade k = none := by
  simp [SimpleLockTable.downgrade, h]

theorem downgrade_present {t : SimpleLockTable} {k : Key} {lock : RwLatch}
    (h : lookupEntry t.hashmap k = some lock) :
    t.downgrade k =
      lock.downgrade.map fun l => ⟨updateEntry t.hashmap k l⟩ := by
  simp [SimpleLockTable.downgrade, h]

theorem release_shared_absent {t : SimpleLockTable} {k : Key}
    (h : lookupEntry t.hashmap k = none) :
    t.release_shared k = none := by
  simp [SimpleLockTable.release_shared, h]

theorem release_shared_present {t : SimpleLockTable} {k : Key} {lock : RwLatch}
    (h : lookupEntry t.hashmap k = some lock)
    (hex : lock.exclusive_held = false) (hc : lock.shared_count ≠ 0) :
    t.release_shared k =
      (if lock.shared_count - 1 ≠ 0 then
        some ⟨updateEntry t.hashmap k ⟨lock.shared_count - 1, false⟩⟩
      else some ⟨removeEntry t.hashmap k⟩) := by
  have hrel : lock.release_shared = some ⟨lock.shared_count - 1, false⟩ := by
    simp [RwLatch.release_shared, hex, hc]
  by_cases hz : lock.shared_count - 1 ≠ 0
  · simp only [SimpleLockTable.release_shared, h, hrel, if_pos hz]
    have : RwLatch.is_locked ⟨lock.shared_count - 1, false⟩ = true := by
      simp [RwLatch.is_locked, hz]
    simp [this]
  · simp only [SimpleLockTable.release_shared, h, hrel, if_neg hz]
    push_neg at hz
    have : RwLatch.is_locked ⟨lock.shared_count - 1, false⟩ = false := by
      simp [RwLatch.is_locked, hz]
    simp [this]

theorem release_exclusive_absent {t : SimpleLockTable} {k : Key}
    (h : lookupEntry t.hashmap k = none) :
    t.release_exclusive k = none := by
  simp [SimpleLockTable.release_exclusive, h]

theorem release_exclusive_present {t : SimpleLockTable} {k : Key} {lock : RwLatch}
    (h : lookupEntry t.hashmap k = some lock)
    (hex : lock.exclusive_held = true) :
    t.release_exclusive k =
      (if lock.shared_count ≠ 0 then
        some ⟨updateEntry t.hashmap k ⟨lock.shared_count, false⟩⟩
      else some ⟨removeEntry t.hashmap k⟩) := by
  have hrel : lock.release_exclusive = some ⟨lock.shared_count, false⟩ := by
    simp [RwLatch.release_exclusive, hex]
  by_cases hz : lock.shared_count ≠ 0
  · simp only [SimpleLockTable.release_exclusive, h, hrel, if_pos hz]
    have : RwLatch.is_locked ⟨lock.shared_count, false⟩ = true := by
      simp [RwLatch.is_locked, hz]
    simp [this]
  · simp only [SimpleLockTable.release_exclusive, h, hrel, if_neg hz]
    push_neg at hz
    have : RwLatch.is_locked ⟨lock.shared_count, false⟩ = false := by
      simp [RwLatch.is_locked, hz]
    simp [this]

theorem release_shared_present_general {t : SimpleLockTable} {k : Key}
    {lock : RwLatch} (h : lookupEntry t.hashmap k = some lock) :
    t.release_shared k =
      (match lock.release_shared with
      | some l =>
          if l.is_locked then some ⟨updateEntry t.hashmap k l⟩
          else some ⟨removeEntry t.hashmap k⟩
      | none => none) := by
  rw [SimpleLockTable.release_shared, h]

theorem release_exclusive_present_general {t : SimpleLockTable} {k : Key}
    {lock : RwLatch} (h : lookupEntry t.hashmap k = some lock) :
    t.release_exclusive k =
      (match lock.release_exclusive with
      | some l =>
          if l.is_locked then some ⟨updateEntry t.hashmap k l⟩
          else some ⟨removeEntry t.hashmap k⟩
      | none => none) := by
  rw [SimpleLockTable.release_exclusive, h]

theorem release_shared_eq_some {l l2 : RwLatch}
    (h : l.release_shared = some l2) :
    l.exclusive_held = false ∧ l.shared_count ≠ 0 ∧
      l2 = ⟨l.shared_count - 1, false⟩ := by
  unfold RwLatch.release_shared at h
  split at h
  · next hc =>
      rw [Bool.and_eq_true, Bool.not_eq_true'] at hc
      obtain ⟨h1, h2⟩ := hc
      refine ⟨h1, by simpa using h2, ?_⟩
      have h3 := Option.some.inj h
      rw [← h3, h1]
  · exact absurd h (by simp)

theorem release_exclusive_eq_some {l l2 : RwLatch}
    (h : l.release_exclusive = some l2) :
    l.exclusive_held = true ∧ l2 = ⟨l.shared_count, false⟩ := by
  unfold RwLatch.release_exclusive at h
  split at h
  · next hc =>
      have h3 := Option.some.inj h
      exact ⟨hc, h3.symm⟩
  · exact absurd h (by simp)

theorem downgrade_eq_some {l l2 : RwLatch}
    (h : l.downgrade = some l2) :
    l.exclusive_held = true ∧ l2 = ⟨1, false⟩ := by
  unfold RwLatch.downgrade at h
  split at h
  · next hc => exact ⟨hc, (Option.some.inj h).symm⟩
  · exact absurd h (by simp)

theorem tableInv_update {t : SimpleLockTable} {k : Key} {l : RwLatch}
    (hinv : TableInv t) (hl : l.is_locked = true) (hw : WFLatch l) :
    TableInv ⟨updateEntry t.hashmap k l⟩ := by
  intro e he
  rcases mem_updateEntry he with h | h
  · subst h
    exact ⟨hl, hw⟩
  · exact hinv e h

theorem tableInv_remove {t : SimpleLockTable} (k : Key) (hinv : TableInv t) :
    TableInv ⟨removeEntry t.hashmap k⟩ :=
  fun e he => hinv e (mem_removeEntry he)

theorem tableInv_cons {t : SimpleLockTable} {k : Key} {l : RwLatch}
    (hinv : TableInv t) (hl : l.is_locked = true) (hw : WFLatch l) :
    TableInv ⟨(k, l) :: t.hashmap⟩ := by
  intro e he
  rcases List.mem_cons.mp he with h | h
  · subst h
    exact ⟨hl, hw⟩
  · exact hinv e h

theorem step_preserves_inv {t t2 : SimpleLockTable} {op : Op}
    (hinv : TableInv t) (hstep : step t op = some t2) : TableInv t2 := by
  cases op with
  | tryShared k =>
      rw [step, Option.some.injEq] at hstep
      subst hstep
      cases hlk : lookupEntry t.hashmap k with
      | none =>
          rw [try_shared_absent hlk]
          exact tableInv_cons hinv (by simp [RwLatch.is_locked])
            (by intro h; simp at h)
      | some lock =>
          by_cases hex : lock.exclusive_held = true
          · rw [try_shared_of_exclusive hlk hex]
            exact hinv
          · rw [try_shared_of_shared hlk (Bool.not_eq_true _ ▸ hex)]
            exact tableInv_update hinv (by simp [RwLatch.is_locked])
              (by intro h; simp at h)
  | tryExclusive k =>
      rw [step, Option.some.injEq] at hstep
      subst hstep
      cases hlk : lookupEntry t.hashmap k with
      | none =>
          rw [try_exclusive_absent hlk]
          exact tableInv_cons hinv (by simp [RwLatch.is_locked]) (fun _ => rfl)
      | some lock =>
          have hl : lock.is_locked = true := (hinv _ (lookupEntry_mem hlk)).1
          rw [try_exclusive_of_locked hlk hl]
          exact hinv
  | tryUpgrade k =>
      rw [step, Option.some.injEq] at hstep
      subst hstep
      cases hlk : lookupEntry t.hashmap k with
      | none =>
          rw [try_upgrade_absent hlk]
          exact hinv
      | some lock =>
          by_cases hc : lock.exclusive_held = false ∧ lock.shared_count = 1
          · rw [try_upgrade_of_sole hlk hc.1 hc.2]
            exact tableInv_update hinv (by simp [RwLatch.is_locked]) (fun _ => rfl)
          · rw [try_upgrade_of_other hlk hc]
            exact hinv
  | doDowngrade k =>
      rw [step] at hstep
      cases hlk : lookupEntry t.hashmap k with
      | none =>
          rw [downgrade_absent hlk] at hstep
          exact absurd hstep (by simp)
      | some lock =>
          rw [downgrade_present hlk] at hstep
          cases hdg : lock.downgrade with
          | none =>
              rw [hdg] at hstep
              exact absurd hstep (by simp)
          | some l2 =>
              rw [hdg] at hstep
              obtain ⟨hex, hl2⟩ := downgrade_eq_some hdg
              have h3 := Option.some.inj hstep
              subst h3
              subst hl2
              exact tableInv_update hinv (by simp [RwLatch.is_locked])
                (by intro h; simp at h)
  | relShared k =>
      rw [step] at hstep
      cases hlk : lookupEntry t.hashmap k with
      | none =>
          rw [release_shared_absent hlk] at hstep
          exact absurd hstep (by simp)
      | some lock =>
          rw [release_shared_present_general hlk] at hstep
          cases hrel : lock.release_shared with
          | none =>
              rw [hrel] at hstep
              exact absurd hstep (by simp)
          | some l2 =>
              rw [hrel] at hstep
              obtain ⟨hex, hc, hl2⟩ := release_shared_eq_some hrel
              have hstep2 :
                  (if l2.is_locked then
                    some (⟨updateEntry t.hashmap k l2⟩ : SimpleLockTable)
                  else some ⟨removeEntry t.hashmap k⟩) = some t2 := hstep
              by_cases hl : l2.is_locked = true
              · rw [if_pos hl] at hstep2
                have h3 := Option.some.inj hstep2
                subst h3
                refine tableInv_update hinv hl ?_
                subst hl2
                intro h
                simp at h
              · rw [if_neg hl] at hstep2
                have h3 := Option.some.inj hstep2
                subst h3
                exact tableInv_remove k hinv
  | relExclusive k =>
      rw [step] at hstep
      cases hlk : lookupEntry t.hashmap k with
      | none =>
          rw [release_exclusive_absent hlk] at hstep
          exact absurd hstep (by simp)
      | some lock =>
          rw [release_exclusive_present_general hlk] at hstep
          cases hrel : lock.release_exclusive with
          | none =>
              rw [hrel] at hstep
              exact absurd hstep (by simp)
          | some l2 =>
              rw [hrel] at hstep
              obtain ⟨hex, hl2⟩ := release_exclusive_eq_some hrel
              have hstep2 :
                  (if l2.is_locked then
                    some (⟨updateEntry t.hashmap k l2⟩ : SimpleLockTable)
                  else some ⟨removeEntry t.hashmap k⟩) = some t2 := hstep
              by_cases hl : l2.is_locked = true
              · rw [if_pos hl] at hstep2
                have h3 := Option.some.inj hstep2
                subst h3
                refine tableInv_update hinv hl ?_
                subst hl2
                intro h
                simp at h
              · rw [if_neg hl] at hstep2
                have h3 := Option.some.inj hstep2
                subst h3
                exact tableInv_remove k hinv

theorem runOps_inv {ops : List Op} {t t2 : SimpleLockTable}
    (hinv : TableInv t) (h : runOps t ops = some t2) : TableInv t2 := by
  induction ops generalizing t with
  | nil =>
      rw [runOps, Option.some.injEq] at h
      subst h
      exact hinv
  | cons op ops ih =>
      rw [runOps] at h
      cases hst : step t op with
      | none =>
          rw [hst] at h
          exact absurd h (by simp)
      | some t3 =>
          rw [hst] at h
          exact ih (step_preserves_inv hinv hst) (by simpa using h)

theorem tableInv_new : TableInv SimpleLockTable.new := by
  intro e he
  simp [SimpleLockTable.new] at he

theorem reachable_inv {t : SimpleLockTable} (h : Reachable t) : TableInv t := by
  obtain ⟨ops, hops⟩ := h
  exact runOps_inv tableInv_new hops

theorem lookupEntry_cons_ne {t : Table} {k k2 : Key} (l : RwLatch)
    (h : k2 ≠ k) : lookupEntry ((k, l) :: t) k2 = lookupEntry t k2 := by
  have h2 : ¬ k = k2 := fun hh => h hh.symm
  simp [lookupEntry, h2]

theorem step_frame {t t2 : SimpleLockTable} {op : Op}
    (hstep : step t op = some t2) {k2 : Key} (hne : k2 ≠ op.key) :
    lookupEntry t2.hashmap k2 = lookupEntry t.hashmap k2 := by
  cases op with
  | tryShared k =>
      have hne2 : k2 ≠ k := hne
      rw [step, Option.some.injEq] at hstep
      subst hstep
      cases hlk : lookupEntry t.hashmap k with
      | none =>
          rw [try_shared_absent hlk]
          exact lookupEntry_cons_ne _ hne2
      | some lock =>
          rw [try_shared_present hlk]
          exact lookupEntry_update_ne _ hne2
  | tryExclusive k =>
      have hne2 : k2 ≠ k := hne
      rw [step, Option.some.injEq] at hstep
      subst hstep
      cases hlk : lookupEntry t.hashmap k with
      | none =>
          rw [try_exclusive_absent hlk]
          exact lookupEntry_cons_ne _ hne2
      | some lock =>
          rw [try_exclusive_present hlk]
          exact lookupEntry_update_ne _ hne2
  | tryUpgrade k =>
      have hne2 : k2 ≠ k := hne
      rw [step, Option.some.injEq] at hstep
      subst hstep
      cases hlk : lookupEntry t.hashmap k with
      | none =>
          rw [try_upgrade_absent hlk]
      | some lock =>
          rw [try_upgrade_present hlk]
          exact lookupEntry_update_ne _ hne2
  | doDowngrade k =>
      have hne2 : k2 ≠ k := hne
      rw [step] at hstep
      cases hlk : lookupEntry t.hashmap k with
      | none =>
          rw [downgrade_absent hlk] at hstep
          exact absurd hstep (by simp)
      | some lock =>
          rw [downgrade_present hlk] at hstep
          cases hdg : lock.downgrade with
          | none =>
              rw [hdg] at hstep
              exact absurd hstep (by simp)
          | some l2 =>
              rw [hdg] at hstep
              have h3 : (⟨updateEntry t.hashmap k l2⟩ : SimpleLockTable) = t2 :=
                Option.some.inj hstep
              subst h3
              exact lookupEntry_update_ne _ hne2
  | relShared k =>
      have hne2 : k2 ≠ k := hne
      rw [step] at hstep
      cases hlk : lookupEntry t.hashmap k with
      | none =>
          rw [release_shared_absent hlk] at hstep
          exact absurd hstep (by simp)
      | some lock =>
          rw [release_shared_present_general hlk] at hstep
          cases hrel : lock.release_shared with
          | none =>
              rw [hrel] at hstep
              exact absurd hstep (by simp)
          | some l2 =>
              rw [hrel] at hstep
              have hstep2 :
                  (if l2.is_locked then
                    some (⟨updateEntry t.hashmap k l2⟩ : SimpleLockTable)
                  else some ⟨removeEntry t.hashmap k⟩) = some t2 := hstep
              by_cases hl : l2.is_locked = true
              · rw [if_pos hl] at hstep2
                have h3 := Option.some.inj hstep2
                subst h3
                exact lookupEntry_update_ne _ hne2
              · rw [if_neg hl] at hstep2
                have h3 := Option.some.inj hstep2
                subst h3
                exact lookupEntry_remove_ne hne2
  | relExclusive k =>
      have hne2 : k2 ≠ k := hne
      rw [step] at hstep
      cases hlk : lookupEntry t.hashmap k with
      | none =>
          rw [release_exclusive_absent hlk] at hstep
          exact absurd hstep (by simp)
      | some lock =>
          rw [release_exclusive_present_general hlk] at hstep
          cases hrel : lock.release_exclusive with
          | none =>
              rw [hrel] at hstep
              exact absurd hstep (by simp)
          | some l2 =>
              rw [hrel] at hstep
              have hstep2 :
                  (if l2.is_locked then
                    some (⟨updateEntry t.hashmap k l2⟩ : SimpleLockTable)
                  else some ⟨removeEntry t.hashmap k⟩) = some t2 := hstep
              by_cases hl : l2.is_locked = true
              · rw [if_pos hl] at hstep2
                have h3 := Option.some.inj hstep2
                subst h3
                exact lookupEntry_update_ne _ hne2
              · rw [if_neg hl] at hstep2
                have h3 := Option.some.inj hstep2
                subst h3
                exact lookupEntry_remove_ne hne2

theorem step_keeps_exclusive {t : SimpleLockTable} {k : Key} {l : RwLatch}
    (hl : lookupEntry t.hashmap k = some l) (hex : l.exclusive_held = true)
    {op : Op} (hop1 : op ≠ Op.relExclusive k) (hop2 : op ≠ Op.doDowngrade k)
    {t2 : SimpleLockTable} (hstep : step t op = some t2) :
    lookupEntry t2.hashmap k = some l := by
  by_cases hk : k = op.key
  · cases op with
    | tryShared k0 =>
        have hk0 : k = k0 := hk
        subst hk0
        rw [step, Option.some.injEq] at hstep
        subst hstep
        rw [try_shared_of_exclusive hl hex]
        exact hl
    | tryExclusive k0 =>
        have hk0 : k = k0 := hk
        subst hk0
        rw [step, Option.some.injEq] at hstep
        subst hstep
        rw [try_exclusive_of_locked hl (by simp [RwLatch.is_locked, hex])]
        exact hl
    | tryUpgrade k0 =>
        have hk0 : k = k0 := hk
        subst hk0
        rw [step, Option.some.injEq] at hstep
        subst hstep
        rw [try_upgrade_of_other hl (fun hc => by rw [hex] at hc; simp at hc)]
        exact hl
    | doDowngrade k0 =>
        have hk0 : k = k0 := hk
        subst hk0
        exact absurd rfl hop2
    | relShared k0 =>
        have hk0 : k = k0 := hk
        subst hk0
        rw [step, release_shared_present_general hl] at hstep
        have hrel : l.release_shared = none := by
          simp [RwLatch.release_shared, hex]
        rw [hrel] at hstep
        exact absurd hstep (by simp)
    | relExclusive k0 =>
        have hk0 : k = k0 := hk
        subst hk0
        exact absurd rfl hop1
  · rw [step_frame hstep hk]
    exact hl

theorem runOps_keeps_exclusive {ops : List Op} {t : SimpleLockTable}
    {k : Key} {l : RwLatch}
    (hl : lookupEntry t.hashmap k = some l) (hex : l.exclusive_held = true)
    (hops : ∀ op ∈ ops, op ≠ Op.relExclusive k ∧ op ≠ Op.doDowngrade k)
    {t2 : SimpleLockTable} (h : runOps t ops = some t2) :
    lookupEntry t2.hashmap k = some l := by
  induction ops generalizing t with
  | nil =>
      rw [runOps, Option.some.injEq] at h
      subst h
      exact hl
  | cons op ops ih =>
      rw [runOps] at h
      cases hst : step t op with
      | none =>
          rw [hst] at h
          exact absurd h (by simp)
      | some t3 =>
          rw [hst] at h
          obtain ⟨h1, h2⟩ := hops op (List.mem_cons_self op ops)
          have hl3 := step_keeps_exclusive hl hex h1 h2 hst
          exact ih hl3 (fun o ho => hops o (List.mem_cons_of_mem _ ho))
            (by simpa using h)

theorem lookupEntry_cons_self {t : Table} {k : Key} {l : RwLatch} :
    lookupEntry ((k, l) :: t) k = some l := by
  simp [lookupEntry]

theorem trySharedN_succ_lookup {t : SimpleLockTable} {k : Key} {n : Nat}
    (hfst : (trySharedN t k n).fst = true)
    (hl : lookupEntry (trySharedN t k n).snd.hashmap k = some ⟨n, false⟩) :
    (trySharedN t k (n + 1)).fst = true ∧
    lookupEntry (trySharedN t k (n + 1)).snd.hashmap k =
      some ⟨n + 1, false⟩ := by
  rw [trySharedN]
  rw [try_shared_of_shared hl rfl]
  constructor
  · simp [hfst]
  · exact lookupEntry_update_self hl _

theorem sharedRoundTrip_new (k : Key) :
    ((SimpleLockTable.new.try_shared k).snd).release_shared k =
      some SimpleLockTable.new := by
  rw [try_shared_absent (t := SimpleLockTable.new) rfl]
  show (⟨[(k, ⟨1, false⟩)]⟩ : SimpleLockTable).release_shared k =
    some SimpleLockTable.new
  rw [release_shared_present (t := ⟨[(k, ⟨1, false⟩)]⟩)
    lookupEntry_cons_self rfl (by decide)]
  simp [removeEntry, SimpleLockTable.new]

/-- C1: in every reachable state of the lock table, every key present in
the map carries a latch in a locked state (shared or exclusive) — a key
appears in the map iff its latch is locked, so after `release_shared` or
`release_exclusive` leaves a latch with `is_locked() == false`, that
entry is removed and no unlocked latch ever remains in the map. -/
theorem claim1_no_unlocked_entry {t : SimpleLockTable} (h : Reachable t)
    (k : Key) (l : RwLatch) (hl : lookupEntry t.hashmap k = some l) :
    l.is_locked = true :=
  (reachable_inv h _ (lookupEntry_mem hl)).1

theorem claim1_no_unlocked_entry_witness :
    RwLatch.is_locked ⟨1, false⟩ = true :=
  claim1_no_unlocked_entry
    (t := ⟨[([0], ⟨1, false⟩)]⟩)
    ⟨[Op.tryShared [0]], by decide⟩ [0] ⟨1, false⟩ (by decide)

/-- C2: in every reachable state, no key's latch ever has
`exclusive_held` true and `shared_count > 0` at the same time: a key is
unlocked, shared, or exclusive, never a mix. -/
theorem claim2_mutual_exclusion {t : SimpleLockTable} (h : Reachable t)
    (k : Key) (l : RwLatch) (hl : lookupEntry t.hashmap k = some l) :
    ¬ (l.exclusive_held = true ∧ 0 < l.shared_count) := by
  intro hcontra
  have hw : l.shared_count = 0 :=
    (reachable_inv h _ (lookupEntry_mem hl)).2 hcontra.1
  have hc2 := hcontra.2
  omega

theorem claim2_mutual_exclusion_witness :
    ¬ ((⟨0, true⟩ : RwLatch).exclusive_held = true ∧
      0 < (⟨0, true⟩ : RwLatch).shared_count) :=
  claim2_mutual_exclusion
    (t := ⟨[([0], ⟨0, true⟩)]⟩)
    ⟨[Op.tryExclusive [0]], by decide⟩ [0] ⟨0, true⟩ (by decide)

/-- C3: for a key whose entry exists with latch `l`, `try_upgrade`
returns true iff `l` is in state `Shared(1)`; on success the entry moves
to the `Exclusive` state, and whenever `shared_count > 1` or the latch
is held exclusively it returns false and leaves the table unchanged. -/
theorem claim3_upgrade_soundness {t : SimpleLockTable} {k : Key}
    {l : RwLatch} (hl : lookupEntry t.hashmap k = some l) :
    ((t.try_upgrade k).fst = true ↔
      l.shared_count = 1 ∧ l.exclusive_held = false) ∧
    (l.shared_count = 1 ∧ l.exclusive_held = false →
      lookupEntry (t.try_upgrade k).snd.hashmap k = some ⟨0, true⟩) ∧
    (1 < l.shared_count ∨ l.exclusive_held = true →
      t.try_upgrade k = (false, t)) := by
  refine ⟨⟨?_, ?_⟩, ?_, ?_⟩
  · intro htrue
    by_contra hno
    have hno2 : ¬ (l.exclusive_held = false ∧ l.shared_count = 1) :=
      fun hc => hno ⟨hc.2, hc.1⟩
    rw [try_upgrade_of_other hl hno2] at htrue
    simp at htrue
  · intro hc
    rw [try_upgrade_of_sole hl hc.2 hc.1]
  · intro hc
    rw [try_upgrade_of_sole hl hc.2 hc.1]
    exact lookupEntry_update_self hl _
  · intro hc
    apply try_upgrade_of_other hl
    intro hno
    rcases hc with hc | hc
    · omega
    · rw [hc] at hno
      exact absurd hno.1 (by simp)

theorem claim3_upgrade_soundness_witness :
    (((⟨[([0], ⟨1, false⟩)]⟩ : SimpleLockTable).try_upgrade [0]).fst = true ↔
      (⟨1, false⟩ : RwLatch).shared_count = 1 ∧
      (⟨1, false⟩ : RwLatch).exclusive_held = false) ∧
    ((⟨1, false⟩ : RwLatch).shared_count = 1 ∧
      (⟨1, false⟩ : RwLatch).exclusive_held = false →
      lookupEntry
        ((⟨[([0], ⟨1, false⟩)]⟩ : SimpleLockTable).try_upgrade [0]).snd.hashmap
        [0] = some ⟨0, true⟩) ∧
    (1 < (⟨1, false⟩ : RwLatch).shared_count ∨
      (⟨1, false⟩ : RwLatch).exclusive_held = true →
      (⟨[([0], ⟨1, false⟩)]⟩ : SimpleLockTable).try_upgrade [0] =
        (false, ⟨[([0], ⟨1, false⟩)]⟩)) :=
  claim3_upgrade_soundness (t := ⟨[([0], ⟨1, false⟩)]⟩) (by decide)

/-- C4: on a key absent from the map, n ≥ 1 consecutive `try_shared`
calls all return true — the first creating a fresh `Shared(1)` entry —
and afterwards the key's `shared_count` equals n. -/
theorem claim4_shared_concurrency {t : SimpleLockTable} {k : Key}
    (h : lookupEntry t.hashmap k = none) (n : Nat) (hn : 1 ≤ n) :
    (trySharedN t k n).fst = true ∧
    lookupEntry (trySharedN t k n).snd.hashmap k = some ⟨n, false⟩ := by
  induction n with
  | zero => omega
  | succ m ih =>
      cases m with
      | zero =>
          rw [trySharedN, trySharedN]
          rw [try_shared_absent h]
          exact ⟨rfl, lookupEntry_cons_self⟩
      | succ m2 =>
          obtain ⟨h1, h2⟩ := ih (by omega)
          exact trySharedN_succ_lookup h1 h2

theorem claim4_shared_concurrency_witness :
    (trySharedN SimpleLockTable.new [0] 3).fst = true ∧
    lookupEntry (trySharedN SimpleLockTable.new [0] 3).snd.hashmap [0] =
      some ⟨3, false⟩ :=
  claim4_shared_concurrency (t := SimpleLockTable.new) (by decide) 3
    (by decide)

/-- C5, counterexample to the claim as stated: after `try_exclusive`
succeeds on a key, a `downgrade` on that key completes — with
`release_exclusive` never called — and leaves the key in `Shared(1)`,
after which `try_shared` on that key returns true; so an acquisition on
the key can succeed before any `release_exclusive`. -/
theorem claim5_exclusive_exclusivity_counterexample :
    (SimpleLockTable.new.try_exclusive [0]).fst = true ∧
    runOps (SimpleLockTable.new.try_exclusive [0]).snd [Op.doDowngrade [0]] =
      some ⟨[([0], ⟨1, false⟩)]⟩ ∧
    Op.doDowngrade [0] ≠ Op.relExclusive [0] ∧
    ((⟨[([0], ⟨1, false⟩)]⟩ : SimpleLockTable).try_shared [0]).fst = true := by
  decide

/-- C5 (amended): on a key absent from the map, `try_exclusive` returns
true and creates the entry in the `Exclusive` state; after that, under
any completed sequence of operations containing neither
`release_exclusive` nor `downgrade` on that key, the key remains
exclusively held and every `try_shared` or `try_exclusive` on it
returns false with the table unchanged.  (`downgrade` must be excepted
alongside `release_exclusive`: it surrenders exclusivity to `Shared(1)`
without a release, as the counterexample shows.) -/
theorem claim5_exclusive_exclusivity {t : SimpleLockTable} {k : Key}
    (h : lookupEntry t.hashmap k = none) :
    (t.try_exclusive k).fst = true ∧
    lookupEntry (t.try_exclusive k).snd.hashmap k = some ⟨0, true⟩ ∧
    ∀ ops t2,
      (∀ op ∈ ops, op ≠ Op.relExclusive k ∧ op ≠ Op.doDowngrade k) →
      runOps (t.try_exclusive k).snd ops = some t2 →
      lookupEntry t2.hashmap k = some ⟨0, true⟩ ∧
      t2.try_shared k = (false, t2) ∧ t2.try_exclusive k = (false, t2) := by
  rw [try_exclusive_absent h]
  refine ⟨rfl, lookupEntry_cons_self, ?_⟩
  intro ops t2 hops hrun
  have hl0 : lookupEntry ((k, ⟨0, true⟩) :: t.hashmap) k = some ⟨0, true⟩ :=
    lookupEntry_cons_self
  have hl2 := runOps_keeps_exclusive hl0 rfl hops hrun
  exact ⟨hl2, try_shared_of_exclusive hl2 rfl,
    try_exclusive_of_locked hl2 (by simp [RwLatch.is_locked])⟩

theorem claim5_exclusive_exclusivity_witness :
    lookupEntry (⟨[([0], ⟨0, true⟩)]⟩ : SimpleLockTable).hashmap [0] =
      some ⟨0, true⟩ ∧
    (⟨[([0], ⟨0, true⟩)]⟩ : SimpleLockTable).try_shared [0] =
      (false, ⟨[([0], ⟨0, true⟩)]⟩) ∧
    (⟨[([0], ⟨0, true⟩)]⟩ : SimpleLockTable).try_exclusive [0] =
      (false, ⟨[([0], ⟨0, true⟩)]⟩) :=
  (claim5_exclusive_exclusivity (t := SimpleLockTable.new) (k := [0])
    (by decide)).2.2
    [Op.tryShared [1], Op.relShared [1], Op.tryShared [0]]
    ⟨[([0], ⟨0, true⟩)]⟩ (by decide) (by decide)

/-- C6: `try_upgrade` on a key with no entry returns false rather than
faulting — the sole absent-key misuse that is not fatal, unlike the
releases and `downgrade` — and leaves the map unchanged; when an entry
exists it delegates to the latch's `try_upgrade`. -/
theorem claim6_upgrade_absent_returns_false {t : SimpleLockTable} {k : Key}
    (h : lookupEntry t.hashmap k = none) :
    t.try_upgrade k = (false, t) ∧
    t.release_shared k = none ∧
    t.release_exclusive k = none ∧
    t.downgrade k = none ∧
    ∀ (t2 : SimpleLockTable) (l : RwLatch),
      lookupEntry t2.hashmap k = some l →
      t2.try_upgrade k =
        (l.try_upgrade.fst, ⟨updateEntry t2.hashmap k l.try_upgrade.snd⟩) :=
  ⟨try_upgrade_absent h, release_shared_absent h, release_exclusive_absent h,
    downgrade_absent h, fun _ _ hl => try_upgrade_present hl⟩

theorem claim6_upgrade_absent_returns_false_witness :
    SimpleLockTable.new.try_upgrade [0] = (false, SimpleLockTable.new) ∧
    SimpleLockTable.new.release_shared [0] = none ∧
    SimpleLockTable.new.release_exclusive [0] = none ∧
    SimpleLockTable.new.downgrade [0] = none ∧
    (⟨[([0], ⟨2, false⟩)]⟩ : SimpleLockTable).try_upgrade [0] =
      ((⟨2, false⟩ : RwLatch).try_upgrade.fst,
        ⟨updateEntry (⟨[([0], ⟨2, false⟩)]⟩ : SimpleLockTable).hashmap [0]
          (⟨2, false⟩ : RwLatch).try_upgrade.snd⟩) := by
  obtain ⟨h1, h2, h3, h4, h5⟩ :=
    claim6_upgrade_absent_returns_false (t := SimpleLockTable.new)
      (k := [0]) (by decide)
  exact ⟨h1, h2, h3, h4, h5 ⟨[([0], ⟨2, false⟩)]⟩ ⟨2, false⟩ (by decide)⟩

/-- C7: on a key with no entry in the map, each of `release_shared`,
`release_exclusive` and `downgrade` is fatal (the `panic!` / `unwrap`
path, modelled as `none`) rather than a silent no-op or error value. -/
theorem claim7_absent_misuse_fatal {t : SimpleLockTable} {k : Key}
    (h : lookupEntry t.hashmap k = none) :
    t.release_shared k = none ∧ t.release_exclusive k = none ∧
    t.downgrade k = none :=
  ⟨release_shared_absent h, release_exclusive_absent h, downgrade_absent h⟩

theorem claim7_absent_misuse_fatal_witness :
    SimpleLockTable.new.release_shared [1] = none ∧
    SimpleLockTable.new.release_exclusive [1] = none ∧
    SimpleLockTable.new.downgrade [1] = none :=
  claim7_absent_misuse_fatal (t := SimpleLockTable.new) (by decide)

/-- C8: starting from the empty table, `try_shared(k)` followed by
`release_shared(k)`, repeated any number of times, returns the table to
the observable empty state every time: `check_all_released()` is true
and a fresh acquisition on k behaves exactly as a first-ever access. -/
theorem claim8_idempotent_round_trip (k : Key) (n : Nat) :
    ∃ t2, sharedRoundTrips SimpleLockTable.new k n = some t2 ∧
      t2 = SimpleLockTable.new ∧ t2.check_all_released = true ∧
      t2.try_shared k = SimpleLockTable.new.try_shared k := by
  refine ⟨SimpleLockTable.new, ?_, rfl, rfl, rfl⟩
  induction n with
  | zero => rfl
  | succ m ih =>
      rw [sharedRoundTrips, ih]
      simpa using sharedRoundTrip_new k

/-- C10: every public lock-table operation invoked with key k —
`try_shared`, `try_exclusive`, `try_upgrade`, `downgrade`,
`release_shared`, `release_exclusive` — leaves the map entry (and hence
the latch state) of every other key unchanged. -/
theorem claim10_frame {t t2 : SimpleLockTable} {op : Op}
    (hstep : step t op = some t2) (k2 : Key) (hne : k2 ≠ op.key) :
    lookupEntry t2.hashmap k2 = lookupEntry t.hashmap k2 :=
  step_frame hstep hne

theorem claim10_frame_witness :
    lookupEntry
      (⟨[([1], ⟨1, false⟩), ([0], ⟨1, false⟩)]⟩ : SimpleLockTable).hashmap
      [0] =
    lookupEntry (⟨[([0], ⟨1, false⟩)]⟩ : SimpleLockTable).hashmap [0] :=
  @claim10_frame ⟨[([0], ⟨1, false⟩)]⟩
    ⟨[([1], ⟨1, false⟩), ([0], ⟨1, false⟩)]⟩
    (Op.tryShared [1]) (by decide) [0] (by decide)

end LockTab
